import Mathlib

/-!
Verification of the line rasterizer (`draw_line`) and the recursive Sierpinski
triangle generator (`draw_sierpinski`) of `sierpinski.c`.

The drawing surface is modelled by the sequence of plot calls a run performs:
each `mvaddch(y, x, ch)` is recorded as the cell `(x, y)` (the pen character is
never inspected by the algorithms, so it is not carried).  C `int` arithmetic is
modelled by `ℤ` (the program's coordinates stay far away from overflow), and
C integer division, which truncates toward zero, by `Int.tdiv`.

`draw_line` consists of eight explicit loops, one per direction octant; each is
embedded as a fuel-indexed recursion whose fuel is the exact iteration count of
the corresponding `for` loop (the loop variable moves by one each iteration, so
the count is the dominant-axis span plus one).

`draw_sierpinski` decrements its `depth` until it reaches the `depth == 0`
check.  For non-negative depths this is structural recursion on the depth,
embedded as `draw_sierpinski` over `ℕ`.  Because the C code tests `depth == 0`
and not `depth <= 0`, a negative depth never reaches the terminal case; to
settle claims about that behaviour the function is also embedded with an
explicit fuel bound and `ℤ`-valued depth (`draw_sierpinskiF`), where exhausted
fuel yields `none`.
-/

namespace Sierpinski

/-- Loop of `draw_line` for `x1 >= x0`, `y1 >= y0`, `dx >= dy`
(x-dominant, x and y increasing), lines 105-113 of `sierpinski.c`. -/
def loopPPX (dx dy : ℤ) : ℕ → ℤ → ℤ → ℤ → List (ℤ × ℤ)
  | 0, _, _, _ => []
  | n + 1, x0, y0, dec =>
    if dec ≤ 0 then (x0, y0 + 1) :: loopPPX dx dy n (x0 + 1) (y0 + 1) (dec + dx - dy)
    else (x0, y0) :: loopPPX dx dy n (x0 + 1) y0 (dec - dy)

/-- Loop for `x1 >= x0`, `y1 >= y0`, `dy > dx` (y-dominant, x and y
increasing), lines 114-123. -/
def loopPPY (dx dy : ℤ) : ℕ → ℤ → ℤ → ℤ → List (ℤ × ℤ)
  | 0, _, _, _ => []
  | n + 1, x0, y0, dec =>
    if dec ≤ 0 then (x0 + 1, y0) :: loopPPY dx dy n (x0 + 1) (y0 + 1) (dec + dy - dx)
    else (x0, y0) :: loopPPY dx dy n x0 (y0 + 1) (dec - dx)

/-- Loop for `x1 >= x0`, `y1 < y0`, `dx >= dy` (x-dominant, x increasing,
y decreasing), lines 127-136. -/
def loopPNX (dx dy : ℤ) : ℕ → ℤ → ℤ → ℤ → List (ℤ × ℤ)
  | 0, _, _, _ => []
  | n + 1, x0, y0, dec =>
    if dec ≤ 0 then (x0, y0 - 1) :: loopPNX dx dy n (x0 + 1) (y0 - 1) (dec + dx - dy)
    else (x0, y0) :: loopPNX dx dy n (x0 + 1) y0 (dec - dy)

/-- Loop for `x1 >= x0`, `y1 < y0`, `dy > dx` (y-dominant, x increasing,
y decreasing), lines 137-147. -/
def loopPNY (dx dy : ℤ) : ℕ → ℤ → ℤ → ℤ → List (ℤ × ℤ)
  | 0, _, _, _ => []
  | n + 1, x0, y0, dec =>
    if dec ≤ 0 then (x0 + 1, y0) :: loopPNY dx dy n (x0 + 1) (y0 - 1) (dec + dy - dx)
    else (x0, y0) :: loopPNY dx dy n x0 (y0 - 1) (dec - dx)

/-- Loop for `x1 < x0`, `y1 >= y0`, `dx >= dy` (x-dominant, x decreasing,
y increasing), lines 152-162. -/
def loopNPX (dx dy : ℤ) : ℕ → ℤ → ℤ → ℤ → List (ℤ × ℤ)
  | 0, _, _, _ => []
  | n + 1, x0, y0, dec =>
    if dec ≤ 0 then (x0, y0 + 1) :: loopNPX dx dy n (x0 - 1) (y0 + 1) (dec + dx - dy)
    else (x0, y0) :: loopNPX dx dy n (x0 - 1) y0 (dec - dy)

/-- Loop for `x1 < x0`, `y1 >= y0`, `dy > dx` (y-dominant, x decreasing,
y increasing), lines 163-172. -/
def loopNPY (dx dy : ℤ) : ℕ → ℤ → ℤ → ℤ → List (ℤ × ℤ)
  | 0, _, _, _ => []
  | n + 1, x0, y0, dec =>
    if dec ≤ 0 then (x0 - 1, y0) :: loopNPY dx dy n (x0 - 1) (y0 + 1) (dec + dy - dx)
    else (x0, y0) :: loopNPY dx dy n x0 (y0 + 1) (dec - dx)

/-- Loop for `x1 < x0`, `y1 < y0`, `dx >= dy` (x-dominant, x and y
decreasing), lines 176-185. -/
def loopNNX (dx dy : ℤ) : ℕ → ℤ → ℤ → ℤ → List (ℤ × ℤ)
  | 0, _, _, _ => []
  | n + 1, x0, y0, dec =>
    if dec ≤ 0 then (x0, y0 - 1) :: loopNNX dx dy n (x0 - 1) (y0 - 1) (dec + dx - dy)
    else (x0, y0) :: loopNNX dx dy n (x0 - 1) y0 (dec - dy)

/-- Loop for `x1 < x0`, `y1 < y0`, `dy > dx` (y-dominant, x and y
decreasing), lines 186-196. -/
def loopNNY (dx dy : ℤ) : ℕ → ℤ → ℤ → ℤ → List (ℤ × ℤ)
  | 0, _, _, _ => []
  | n + 1, x0, y0, dec =>
    if dec ≤ 0 then (x0 - 1, y0) :: loopNNY dx dy n (x0 - 1) (y0 - 1) (dec + dy - dx)
    else (x0, y0) :: loopNNY dx dy n x0 (y0 - 1) (dec - dx)

/-- `draw_line` of `sierpinski.c` (lines 97-199): the sequence of cells
plotted when connecting `(x0, y0)` to `(x1, y1)`.  Each of the eight branches
runs its loop for exactly dominant-axis-span + 1 iterations, starting the
decision accumulator at the dominant-axis delta. -/
def draw_line (x0 y0 x1 y1 : ℤ) : List (ℤ × ℤ) :=
  if x1 ≥ x0 then
    if y1 ≥ y0 then
      if x1 - x0 ≥ y1 - y0 then
        loopPPX (x1 - x0) (y1 - y0) ((x1 - x0).toNat + 1) x0 y0 (x1 - x0)
      else
        loopPPY (x1 - x0) (y1 - y0) ((y1 - y0).toNat + 1) x0 y0 (y1 - y0)
    else
      if x1 - x0 ≥ y0 - y1 then
        loopPNX (x1 - x0) (y0 - y1) ((x1 - x0).toNat + 1) x0 y0 (x1 - x0)
      else
        loopPNY (x1 - x0) (y0 - y1) ((y0 - y1).toNat + 1) x0 y0 (y0 - y1)
  else
    if y1 ≥ y0 then
      if x0 - x1 ≥ y1 - y0 then
        loopNPX (x0 - x1) (y1 - y0) ((x0 - x1).toNat + 1) x0 y0 (x0 - x1)
      else
        loopNPY (x0 - x1) (y1 - y0) ((y1 - y0).toNat + 1) x0 y0 (y1 - y0)
    else
      if x0 - x1 ≥ y0 - y1 then
        loopNNX (x0 - x1) (y0 - y1) ((x0 - x1).toNat + 1) x0 y0 (x0 - x1)
      else
        loopNNY (x0 - x1) (y0 - y1) ((y0 - y1).toNat + 1) x0 y0 (y0 - y1)

/-- The vertex triple passed to the first recursive call of `draw_sierpinski`
(the "left triangle", line 76 of `sierpinski.c`).  The C parameter `by` is
rendered `byy` because `by` is reserved in Lean. -/
def childLeft (ax ay bx byy cx cy : ℤ) : (ℤ × ℤ) × (ℤ × ℤ) × (ℤ × ℤ) :=
  ((bx + Int.tdiv (ax - bx) 2, ay + Int.tdiv (byy - ay) 2), (bx, byy), (ax, byy))

/-- The vertex triple passed to the second recursive call (the "right
triangle", line 77). -/
def childRight (ax ay bx byy cx cy : ℤ) : (ℤ × ℤ) × (ℤ × ℤ) × (ℤ × ℤ) :=
  ((ax + Int.tdiv (cx - ax) 2, ay + Int.tdiv (cy - ay) 2), (ax, byy), (cx, cy))

/-- The vertex triple passed to the third recursive call (the "upper
triangle", line 78). -/
def childUpper (ax ay bx byy cx cy : ℤ) : (ℤ × ℤ) × (ℤ × ℤ) × (ℤ × ℤ) :=
  ((ax, ay), (bx + Int.tdiv (ax - bx) 2, ay + Int.tdiv (byy - ay) 2),
    (ax + Int.tdiv (cx - ax) 2, ay + Int.tdiv (cy - ay) 2))

/-- `draw_sierpinski` of `sierpinski.c` (lines 71-83) for non-negative depth:
the sequence of cells plotted.  Children recurse first (left, right, upper),
then the three edges of the current triangle are drawn. -/
def draw_sierpinski (ax ay bx byy cx cy : ℤ) : ℕ → List (ℤ × ℤ)
  | 0 => []
  | d + 1 =>
    draw_sierpinski (bx + Int.tdiv (ax - bx) 2) (ay + Int.tdiv (byy - ay) 2) bx byy ax byy d ++
    draw_sierpinski (ax + Int.tdiv (cx - ax) 2) (ay + Int.tdiv (cy - ay) 2) ax byy cx cy d ++
    draw_sierpinski ax ay (bx + Int.tdiv (ax - bx) 2) (ay + Int.tdiv (byy - ay) 2)
      (ax + Int.tdiv (cx - ax) 2) (ay + Int.tdiv (cy - ay) 2) d ++
    draw_line ax ay bx byy ++ draw_line bx byy cx cy ++ draw_line cx cy ax ay

/-- The sequence of `draw_line` invocations (endpoint pairs) performed by
`draw_sierpinski`, in call order. -/
def draw_sierpinski_segs (ax ay bx byy cx cy : ℤ) : ℕ → List ((ℤ × ℤ) × (ℤ × ℤ))
  | 0 => []
  | d + 1 =>
    draw_sierpinski_segs (bx + Int.tdiv (ax - bx) 2) (ay + Int.tdiv (byy - ay) 2)
      bx byy ax byy d ++
    draw_sierpinski_segs (ax + Int.tdiv (cx - ax) 2) (ay + Int.tdiv (cy - ay) 2)
      ax byy cx cy d ++
    draw_sierpinski_segs ax ay (bx + Int.tdiv (ax - bx) 2) (ay + Int.tdiv (byy - ay) 2)
      (ax + Int.tdiv (cx - ax) 2) (ay + Int.tdiv (cy - ay) 2) d ++
    [((ax, ay), (bx, byy)), ((bx, byy), (cx, cy)), ((cx, cy), (ax, ay))]

/-- `draw_sierpinski` with the C `int` depth and an explicit bound `fuel` on
the recursion depth actually explored: `none` means the call tree was not
exhausted within `fuel` nested levels.  The C code tests `depth == 0` exactly,
so a negative depth never terminates; here that shows up as `none` for every
fuel. -/
def draw_sierpinskiF : ℕ → ℤ → ℤ → ℤ → ℤ → ℤ → ℤ → ℤ → Option (List (ℤ × ℤ))
  | 0, _, _, _, _, _, _, _ => none
  | fuel + 1, ax, ay, bx, byy, cx, cy, depth =>
    if depth = 0 then some []
    else
      match draw_sierpinskiF fuel (bx + Int.tdiv (ax - bx) 2) (ay + Int.tdiv (byy - ay) 2)
          bx byy ax byy (depth - 1),
        draw_sierpinskiF fuel (ax + Int.tdiv (cx - ax) 2) (ay + Int.tdiv (cy - ay) 2)
          ax byy cx cy (depth - 1),
        draw_sierpinskiF fuel ax ay (bx + Int.tdiv (ax - bx) 2)
          (ay + Int.tdiv (byy - ay) 2) (ax + Int.tdiv (cx - ax) 2)
          (ay + Int.tdiv (cy - ay) 2) (depth - 1) with
      | some l1, some l2, some l3 =>
        some (l1 ++ l2 ++ l3 ++ draw_line ax ay bx byy ++
          draw_line bx byy cx cy ++ draw_line cx cy ax ay)
      | _, _, _ => none

/-- `draw_sierpinski ax ay bx byy cx cy depth` terminates: some finite
recursion-depth bound suffices to evaluate it completely. -/
def dsTerminates (ax ay bx byy cx cy depth : ℤ) : Prop :=
  ∃ fuel r, draw_sierpinskiF fuel ax ay bx byy cx cy depth = some r

/-- Modelled from the spec: the midpoint of two grid points "using
integer-truncating averaging — floor division, not rounding": the floor of the
arithmetic mean, coordinatewise.  This is the spec-side definition that claim
C5 compares against the child vertices the code actually uses. -/
def specMidpoint (px py qx qy : ℤ) : ℤ × ℤ :=
  (Int.fdiv (px + qx) 2, Int.fdiv (py + qy) 2)

/-- Number of `draw_line` invocations of `draw_sierpinski` as a function of
depth alone. -/
def edgeCount : ℕ → ℕ
  | 0 => 0
  | d + 1 => 3 * edgeCount d + 3

/-- Apply `draw_sierpinski` to a vertex triple, as produced by `childLeft`,
`childRight` and `childUpper`. -/
def dsOfTriple (t : (ℤ × ℤ) × (ℤ × ℤ) × (ℤ × ℤ)) (d : ℕ) : List (ℤ × ℤ) :=
  draw_sierpinski t.1.1 t.1.2 t.2.1.1 t.2.1.2 t.2.2.1 t.2.2.2 d

/-! ## The seven reflected loops as images of `loopPPX`

All eight loop bodies share the same decision-accumulator dynamics; the other
seven are `loopPPX` composed with a reflection (negate an axis) and/or a
transposition (swap the roles of x and y). -/

theorem loopPPY_eq (dx dy : ℤ) : ∀ (n : ℕ) (x y dec : ℤ),
    loopPPY dx dy n x y dec = (loopPPX dy dx n y x dec).map (fun p => (p.2, p.1)) := by
  intro n
  induction n with
  | zero => intro x y dec; rfl
  | succ n ih =>
    intro x y dec
    simp only [loopPPX, loopPPY]
    split <;> simp only [ih, List.map_cons]

theorem loopPNX_eq (dx dy : ℤ) : ∀ (n : ℕ) (x y dec : ℤ),
    loopPNX dx dy n x y dec = (loopPPX dx dy n x (-y) dec).map (fun p => (p.1, -p.2)) := by
  intro n
  induction n with
  | zero => intro x y dec; rfl
  | succ n ih =>
    intro x y dec
    simp only [loopPPX, loopPNX]
    split <;> simp only [ih, List.map_cons, neg_neg] <;> ring_nf

theorem loopPNY_eq (dx dy : ℤ) : ∀ (n : ℕ) (x y dec : ℤ),
    loopPNY dx dy n x y dec = (loopPPX dy dx n (-y) x dec).map (fun p => (p.2, -p.1)) := by
  intro n
  induction n with
  | zero => intro x y dec; rfl
  | succ n ih =>
    intro x y dec
    have e : -(y - 1) = -y + 1 := by ring
    simp only [loopPPX, loopPNY]
    split <;> simp only [ih, List.map_cons, neg_neg, e] <;> ring_nf

theorem loopNPX_eq (dx dy : ℤ) : ∀ (n : ℕ) (x y dec : ℤ),
    loopNPX dx dy n x y dec = (loopPPX dx dy n (-x) y dec).map (fun p => (-p.1, p.2)) := by
  intro n
  induction n with
  | zero => intro x y dec; rfl
  | succ n ih =>
    intro x y dec
    have e : -(x - 1) = -x + 1 := by ring
    simp only [loopPPX, loopNPX]
    split <;> simp only [ih, List.map_cons, neg_neg, e] <;> ring_nf

theorem loopNPY_eq (dx dy : ℤ) : ∀ (n : ℕ) (x y dec : ℤ),
    loopNPY dx dy n x y dec = (loopPPX dy dx n y (-x) dec).map (fun p => (-p.2, p.1)) := by
  intro n
  induction n with
  | zero => intro x y dec; rfl
  | succ n ih =>
    intro x y dec
    have e : -(x - 1) = -x + 1 := by ring
    simp only [loopPPX, loopNPY]
    split <;> simp only [ih, List.map_cons, neg_neg, e] <;> ring_nf

theorem loopNNX_eq (dx dy : ℤ) : ∀ (n : ℕ) (x y dec : ℤ),
    loopNNX dx dy n x y dec = (loopPPX dx dy n (-x) (-y) dec).map (fun p => (-p.1, -p.2)) := by
  intro n
  induction n with
  | zero => intro x y dec; rfl
  | succ n ih =>
    intro x y dec
    have e : -(x - 1) = -x + 1 := by ring
    simp only [loopPPX, loopNNX]
    split <;> simp only [ih, List.map_cons, neg_neg, e] <;> ring_nf

theorem loopNNY_eq (dx dy : ℤ) : ∀ (n : ℕ) (x y dec : ℤ),
    loopNNY dx dy n x y dec = (loopPPX dy dx n (-y) (-x) dec).map (fun p => (-p.2, -p.1)) := by
  intro n
  induction n with
  | zero => intro x y dec; rfl
  | succ n ih =>
    intro x y dec
    have e : -(y - 1) = -y + 1 := by ring
    simp only [loopPPX, loopNNY]
    split <;> simp only [ih, List.map_cons, neg_neg, e] <;> ring_nf

/-! ## Closed form of the decision-accumulator loop

Starting from `dec = dx` with `0 < dx` and `0 ≤ dy ≤ dx`, iteration `j` of
`loopPPX` plots `(x + j, y + (j * dy) / dx)` (Euclidean division, which for
nonnegative numerators is plain floor division). -/

theorem ediv_mul_step (dx dy : ℤ) (hdx : 0 < dx) (hdy : 0 ≤ dy) (hle : dy ≤ dx) (i : ℤ) :
    (i * dy) / dx ≤ ((i + 1) * dy) / dx ∧ ((i + 1) * dy) / dx ≤ (i * dy) / dx + 1 := by
  constructor
  · apply Int.ediv_le_ediv hdx
    nlinarith
  · have h1 : (i + 1) * dy = i * dy + dy := by ring
    have h2 : (i * dy + 1 * dx) / dx = (i * dy) / dx + 1 :=
      Int.add_mul_ediv_right _ 1 (by omega)
    rw [h1]
    calc (i * dy + dy) / dx ≤ (i * dy + 1 * dx) / dx := by
          apply Int.ediv_le_ediv hdx; omega
      _ = (i * dy) / dx + 1 := h2

theorem loopPPX_go (dx dy : ℤ) (hdx : 0 < dx) (hdy : 0 ≤ dy) (hle : dy ≤ dx) :
    ∀ (n i : ℕ) (x y : ℤ),
    loopPPX dx dy n (x + (i : ℤ) + 1) (y + ((i : ℤ) * dy) / dx)
        ((1 + ((i : ℤ) * dy) / dx) * dx - ((i : ℤ) + 1) * dy)
    = (List.range n).map
        (fun j : ℕ => (x + (i : ℤ) + 1 + (j : ℤ),
          y + (((i : ℤ) + 1 + (j : ℤ)) * dy) / dx)) := by
  intro n
  induction n with
  | zero => intro i x y; rfl
  | succ n ih =>
    intro i x y
    obtain ⟨hmono, hstep⟩ := ediv_mul_step dx dy hdx hdy hle (i : ℤ)
    simp only [loopPPX]
    split
    case isTrue h =>
      have hcond : 1 + ((i : ℤ) * dy) / dx ≤ (((i : ℤ) + 1) * dy) / dx := by
        rw [Int.le_ediv_iff_mul_le hdx]
        omega
      have hG : (((i : ℤ) + 1) * dy) / dx = ((i : ℤ) * dy) / dx + 1 := by omega
      rw [List.range_succ_eq_map, List.map_cons, List.map_map]
      have harg1 : x + (i : ℤ) + 1 + 1 = x + ((i + 1 : ℕ) : ℤ) + 1 := by push_cast; ring
      have harg2 : y + ((i : ℤ) * dy) / dx + 1 = y + (((i + 1 : ℕ) : ℤ) * dy) / dx := by
        push_cast
        omega
      have harg3 : (1 + ((i : ℤ) * dy) / dx) * dx - ((i : ℤ) + 1) * dy + dx - dy
          = (1 + (((i + 1 : ℕ) : ℤ) * dy) / dx) * dx - (((i + 1 : ℕ) : ℤ) + 1) * dy := by
        push_cast
        rw [hG]
        ring
      rw [harg1, harg2, harg3, ih]
      congr 1
      case e_head =>
        simp only [Nat.cast_zero, add_zero, Prod.mk.injEq]
        constructor
        · trivial
        · push_cast; omega
      case e_tail =>
        apply List.map_congr_left
        intro j hj
        simp only [Function.comp_apply, Prod.mk.injEq]
        constructor
        · push_cast; ring
        · congr 2
          push_cast
          ring
    case isFalse h =>
      have hcond : (((i : ℤ) + 1) * dy) / dx < ((i : ℤ) * dy) / dx + 1 := by
        rw [Int.ediv_lt_iff_lt_mul hdx]
        nlinarith [h]
      have hG : (((i : ℤ) + 1) * dy) / dx = ((i : ℤ) * dy) / dx := by omega
      rw [List.range_succ_eq_map, List.map_cons, List.map_map]
      have harg1 : x + (i : ℤ) + 1 + 1 = x + ((i + 1 : ℕ) : ℤ) + 1 := by push_cast; ring
      have harg2 : y + ((i : ℤ) * dy) / dx = y + (((i + 1 : ℕ) : ℤ) * dy) / dx := by
        push_cast
        omega
      have harg3 : (1 + ((i : ℤ) * dy) / dx) * dx - ((i : ℤ) + 1) * dy - dy
          = (1 + (((i + 1 : ℕ) : ℤ) * dy) / dx) * dx - (((i + 1 : ℕ) : ℤ) + 1) * dy := by
        push_cast
        rw [hG]
        ring
      rw [harg1, harg2, harg3, ih]
      congr 1
      case e_head =>
        simp only [Nat.cast_zero, add_zero, Prod.mk.injEq]
        constructor
        · trivial
        · push_cast; omega
      case e_tail =>
        apply List.map_congr_left
        intro j hj
        simp only [Function.comp_apply, Prod.mk.injEq]
        constructor
        · push_cast; ring
        · congr 2
          push_cast
          ring

theorem loopPPX_closed (dx dy : ℤ) (hdx : 0 < dx) (hdy : 0 ≤ dy) (hle : dy ≤ dx)
    (n : ℕ) (x y : ℤ) :
    loopPPX dx dy (n + 1) x y dx
    = (List.range (n + 1)).map (fun j : ℕ => (x + (j : ℤ), y + ((j : ℤ) * dy) / dx)) := by
  have h0 := loopPPX_go dx dy hdx hdy hle n 0 x y
  simp only [Nat.cast_zero, zero_mul, add_zero, Int.zero_ediv, one_mul, zero_add] at h0
  simp only [loopPPX]
  rw [if_neg (by omega), h0, List.range_succ_eq_map, List.map_cons, List.map_map]
  congr 1
  case e_head =>
    simp
  case e_tail =>
    apply List.map_congr_left
    intro j hj
    simp only [Function.comp_apply, Prod.mk.injEq]
    constructor
    · push_cast; ring
    · congr 2
      push_cast
      ring

/-! ## `draw_line`, branch by branch -/

/-- The degenerate call `draw_line x y x y` takes the first branch with
`dx = dy = 0`, so the accumulator starts at `0 ≤ 0` and the single iteration
steps `y` before plotting: the one plotted cell is `(x, y + 1)`, not `(x, y)`. -/
theorem draw_line_self (x y : ℤ) : draw_line x y x y = [(x, y + 1)] := by
  simp [draw_line, loopPPX]

theorem draw_line_PPX (x0 y0 x1 y1 : ℤ) (hx : x0 ≤ x1) (hy : y0 ≤ y1)
    (hs : y1 - y0 ≤ x1 - x0) (hne : x0 ≠ x1) :
    draw_line x0 y0 x1 y1
    = (List.range ((x1 - x0).toNat + 1)).map
        (fun j : ℕ => (x0 + (j : ℤ), y0 + ((j : ℤ) * (y1 - y0)) / (x1 - x0))) := by
  unfold draw_line
  rw [if_pos (show x1 ≥ x0 from hx), if_pos (show y1 ≥ y0 from hy),
    if_pos (show x1 - x0 ≥ y1 - y0 from hs)]
  exact loopPPX_closed (x1 - x0) (y1 - y0) (by omega) (by omega) hs _ x0 y0

theorem draw_line_PPY (x0 y0 x1 y1 : ℤ) (hx : x0 ≤ x1) (hy : y0 ≤ y1)
    (hs : x1 - x0 < y1 - y0) :
    draw_line x0 y0 x1 y1
    = (List.range ((y1 - y0).toNat + 1)).map
        (fun j : ℕ => (x0 + ((j : ℤ) * (x1 - x0)) / (y1 - y0), y0 + (j : ℤ))) := by
  unfold draw_line
  rw [if_pos (show x1 ≥ x0 from hx), if_pos (show y1 ≥ y0 from hy),
    if_neg (show ¬x1 - x0 ≥ y1 - y0 by omega), loopPPY_eq,
    loopPPX_closed (y1 - y0) (x1 - x0) (by omega) (by omega) (by omega) _ y0 x0,
    List.map_map]
  rfl

theorem draw_line_PNX (x0 y0 x1 y1 : ℤ) (hx : x0 ≤ x1) (hy : y1 < y0)
    (hs : y0 - y1 ≤ x1 - x0) :
    draw_line x0 y0 x1 y1
    = (List.range ((x1 - x0).toNat + 1)).map
        (fun j : ℕ => (x0 + (j : ℤ), y0 - ((j : ℤ) * (y0 - y1)) / (x1 - x0))) := by
  unfold draw_line
  rw [if_pos (show x1 ≥ x0 from hx), if_neg (show ¬y1 ≥ y0 by omega),
    if_pos (show x1 - x0 ≥ y0 - y1 from hs), loopPNX_eq,
    loopPPX_closed (x1 - x0) (y0 - y1) (by omega) (by omega) hs _ x0 (-y0),
    List.map_map]
  apply List.map_congr_left
  intro j hj
  simp only [Function.comp_apply, Prod.mk.injEq]
  exact ⟨trivial, by ring⟩

theorem draw_line_PNY (x0 y0 x1 y1 : ℤ) (hx : x0 ≤ x1) (hy : y1 < y0)
    (hs : x1 - x0 < y0 - y1) :
    draw_line x0 y0 x1 y1
    = (List.range ((y0 - y1).toNat + 1)).map
        (fun j : ℕ => (x0 + ((j : ℤ) * (x1 - x0)) / (y0 - y1), y0 - (j : ℤ))) := by
  unfold draw_line
  rw [if_pos (show x1 ≥ x0 from hx), if_neg (show ¬y1 ≥ y0 by omega),
    if_neg (show ¬x1 - x0 ≥ y0 - y1 by omega), loopPNY_eq,
    loopPPX_closed (y0 - y1) (x1 - x0) (by omega) (by omega) (by omega) _ (-y0) x0,
    List.map_map]
  apply List.map_congr_left
  intro j hj
  simp only [Function.comp_apply, Prod.mk.injEq]
  exact ⟨trivial, by ring⟩

theorem draw_line_NPX (x0 y0 x1 y1 : ℤ) (hx : x1 < x0) (hy : y0 ≤ y1)
    (hs : y1 - y0 ≤ x0 - x1) :
    draw_line x0 y0 x1 y1
    = (List.range ((x0 - x1).toNat + 1)).map
        (fun j : ℕ => (x0 - (j : ℤ), y0 + ((j : ℤ) * (y1 - y0)) / (x0 - x1))) := by
  unfold draw_line
  rw [if_neg (show ¬x1 ≥ x0 by omega), if_pos (show y1 ≥ y0 from hy),
    if_pos (show x0 - x1 ≥ y1 - y0 from hs), loopNPX_eq,
    loopPPX_closed (x0 - x1) (y1 - y0) (by omega) (by omega) hs _ (-x0) y0,
    List.map_map]
  apply List.map_congr_left
  intro j hj
  simp only [Function.comp_apply, Prod.mk.injEq]
  exact ⟨by ring, trivial⟩

theorem draw_line_NPY (x0 y0 x1 y1 : ℤ) (hx : x1 < x0) (hy : y0 ≤ y1)
    (hs : x0 - x1 < y1 - y0) :
    draw_line x0 y0 x1 y1
    = (List.range ((y1 - y0).toNat + 1)).map
        (fun j : ℕ => (x0 - ((j : ℤ) * (x0 - x1)) / (y1 - y0), y0 + (j : ℤ))) := by
  unfold draw_line
  rw [if_neg (show ¬x1 ≥ x0 by omega), if_pos (show y1 ≥ y0 from hy),
    if_neg (show ¬x0 - x1 ≥ y1 - y0 by omega), loopNPY_eq,
    loopPPX_closed (y1 - y0) (x0 - x1) (by omega) (by omega) (by omega) _ y0 (-x0),
    List.map_map]
  apply List.map_congr_left
  intro j hj
  simp only [Function.comp_apply, Prod.mk.injEq]
  exact ⟨by ring, trivial⟩

theorem draw_line_NNX (x0 y0 x1 y1 : ℤ) (hx : x1 < x0) (hy : y1 < y0)
    (hs : y0 - y1 ≤ x0 - x1) :
    draw_line x0 y0 x1 y1
    = (List.range ((x0 - x1).toNat + 1)).map
        (fun j : ℕ => (x0 - (j : ℤ), y0 - ((j : ℤ) * (y0 - y1)) / (x0 - x1))) := by
  unfold draw_line
  rw [if_neg (show ¬x1 ≥ x0 by omega), if_neg (show ¬y1 ≥ y0 by omega),
    if_pos (show x0 - x1 ≥ y0 - y1 from hs), loopNNX_eq,
    loopPPX_closed (x0 - x1) (y0 - y1) (by omega) (by omega) hs _ (-x0) (-y0),
    List.map_map]
  apply List.map_congr_left
  intro j hj
  simp only [Function.comp_apply, Prod.mk.injEq]
  exact ⟨by ring, by ring⟩

theorem draw_line_NNY (x0 y0 x1 y1 : ℤ) (hx : x1 < x0) (hy : y1 < y0)
    (hs : x0 - x1 < y0 - y1) :
    draw_line x0 y0 x1 y1
    = (List.range ((y0 - y1).toNat + 1)).map
        (fun j : ℕ => (x0 - ((j : ℤ) * (x0 - x1)) / (y0 - y1), y0 - (j : ℤ))) := by
  unfold draw_line
  rw [if_neg (show ¬x1 ≥ x0 by omega), if_neg (show ¬y1 ≥ y0 by omega),
    if_neg (show ¬x0 - x1 ≥ y0 - y1 by omega), loopNNY_eq,
    loopPPX_closed (y0 - y1) (x0 - x1) (by omega) (by omega) (by omega) _ (-y0) (-x0),
    List.map_map]
  apply List.map_congr_left
  intro j hj
  simp only [Function.comp_apply, Prod.mk.injEq]
  exact ⟨by ring, by ring⟩

/-! ## Generic facts about `(range (n+1)).map g` -/

theorem head?_range_map {α : Type} (g : ℕ → α) (n : ℕ) :
    ((List.range (n + 1)).map g).head? = some (g 0) := by
  rw [List.range_succ_eq_map]
  simp

theorem getLast?_range_map {α : Type} (g : ℕ → α) (n : ℕ) :
    ((List.range (n + 1)).map g).getLast? = some (g n) := by
  rw [List.getLast?_eq_getElem?]
  simp only [List.length_map, List.length_range, Nat.add_sub_cancel]
  rw [List.getElem?_map, List.getElem?_range (by omega)]
  rfl

theorem chain'_range_map {α : Type} (R : α → α → Prop) (g : ℕ → α) (n : ℕ)
    (h : ∀ m, m < n → R (g m) (g (m + 1))) :
    List.Chain' R ((List.range (n + 1)).map g) := by
  rw [List.chain'_map]
  exact (List.chain'_range_succ _ n).mpr h

theorem nodup_range_map {α : Type} [DecidableEq α] (g : ℕ → α) (n : ℕ)
    (hg : Function.Injective g) : ((List.range n).map g).Nodup :=
  (List.nodup_range n).map hg

/-! ## Properties of `draw_line` -/

/-- Every call plots exactly `max |Δx| |Δy| + 1` cells (the dominant-axis loop
runs once per dominant-axis coordinate, endpoints included). -/
theorem draw_line_length (x0 y0 x1 y1 : ℤ) :
    (draw_line x0 y0 x1 y1).length = max (x1 - x0).natAbs (y1 - y0).natAbs + 1 := by
  by_cases hd : x0 = x1 ∧ y0 = y1
  · obtain ⟨h1, h2⟩ := hd
    rw [← h1, ← h2, draw_line_self]
    simp
  · rcases le_or_lt x0 x1 with hx | hx
    · rcases le_or_lt y0 y1 with hy | hy
      · rcases le_or_lt (y1 - y0) (x1 - x0) with hs | hs
        · have hxne : x0 ≠ x1 := by rintro rfl; exact hd ⟨rfl, by omega⟩
          rw [draw_line_PPX x0 y0 x1 y1 hx hy hs hxne]
          simp only [List.length_map, List.length_range]
          omega
        · rw [draw_line_PPY x0 y0 x1 y1 hx hy hs]
          simp only [List.length_map, List.length_range]
          omega
      · rcases le_or_lt (y0 - y1) (x1 - x0) with hs | hs
        · rw [draw_line_PNX x0 y0 x1 y1 hx hy hs]
          simp only [List.length_map, List.length_range]
          omega
        · rw [draw_line_PNY x0 y0 x1 y1 hx hy hs]
          simp only [List.length_map, List.length_range]
          omega
    · rcases le_or_lt y0 y1 with hy | hy
      · rcases le_or_lt (y1 - y0) (x0 - x1) with hs | hs
        · rw [draw_line_NPX x0 y0 x1 y1 hx hy hs]
          simp only [List.length_map, List.length_range]
          omega
        · rw [draw_line_NPY x0 y0 x1 y1 hx hy hs]
          simp only [List.length_map, List.length_range]
          omega
      · rcases le_or_lt (y0 - y1) (x0 - x1) with hs | hs
        · rw [draw_line_NNX x0 y0 x1 y1 hx hy hs]
          simp only [List.length_map, List.length_range]
          omega
        · rw [draw_line_NNY x0 y0 x1 y1 hx hy hs]
          simp only [List.length_map, List.length_range]
          omega

/-- For distinct endpoints, the first plotted cell is `(x0, y0)` (the
accumulator starts at the dominant delta, which is positive, so the first
iteration does not step the minor axis). -/
theorem draw_line_head (x0 y0 x1 y1 : ℤ) (hd : ¬(x0 = x1 ∧ y0 = y1)) :
    (draw_line x0 y0 x1 y1).head? = some (x0, y0) := by
  rcases le_or_lt x0 x1 with hx | hx
  · rcases le_or_lt y0 y1 with hy | hy
    · rcases le_or_lt (y1 - y0) (x1 - x0) with hs | hs
      · have hxne : x0 ≠ x1 := by rintro rfl; exact hd ⟨rfl, by omega⟩
        rw [draw_line_PPX x0 y0 x1 y1 hx hy hs hxne, head?_range_map]
        simp
      · rw [draw_line_PPY x0 y0 x1 y1 hx hy hs, head?_range_map]
        simp
    · rcases le_or_lt (y0 - y1) (x1 - x0) with hs | hs
      · rw [draw_line_PNX x0 y0 x1 y1 hx hy hs, head?_range_map]
        simp
      · rw [draw_line_PNY x0 y0 x1 y1 hx hy hs, head?_range_map]
        simp
  · rcases le_or_lt y0 y1 with hy | hy
    · rcases le_or_lt (y1 - y0) (x0 - x1) with hs | hs
      · rw [draw_line_NPX x0 y0 x1 y1 hx hy hs, head?_range_map]
        simp
      · rw [draw_line_NPY x0 y0 x1 y1 hx hy hs, head?_range_map]
        simp
    · rcases le_or_lt (y0 - y1) (x0 - x1) with hs | hs
      · rw [draw_line_NNX x0 y0 x1 y1 hx hy hs, head?_range_map]
        simp
      · rw [draw_line_NNY x0 y0 x1 y1 hx hy hs, head?_range_map]
        simp

/-- For distinct endpoints, the last plotted cell is `(x1, y1)`. -/
theorem draw_line_getLast (x0 y0 x1 y1 : ℤ) (hd : ¬(x0 = x1 ∧ y0 = y1)) :
    (draw_line x0 y0 x1 y1).getLast? = some (x1, y1) := by
  rcases le_or_lt x0 x1 with hx | hx
  · rcases le_or_lt y0 y1 with hy | hy
    · rcases le_or_lt (y1 - y0) (x1 - x0) with hs | hs
      · have hxne : x0 ≠ x1 := by rintro rfl; exact hd ⟨rfl, by omega⟩
        rw [draw_line_PPX x0 y0 x1 y1 hx hy hs hxne, getLast?_range_map]
        rw [show (((x1 - x0).toNat : ℕ) : ℤ) = x1 - x0 from Int.toNat_of_nonneg (by omega),
          Int.mul_ediv_cancel_left _ (show x1 - x0 ≠ 0 by omega)]
        simp only [Option.some.injEq, Prod.mk.injEq]
        constructor <;> ring
      · rw [draw_line_PPY x0 y0 x1 y1 hx hy hs, getLast?_range_map]
        rw [show (((y1 - y0).toNat : ℕ) : ℤ) = y1 - y0 from Int.toNat_of_nonneg (by omega),
          Int.mul_ediv_cancel_left _ (show y1 - y0 ≠ 0 by omega)]
        simp only [Option.some.injEq, Prod.mk.injEq]
        constructor <;> ring
    · rcases le_or_lt (y0 - y1) (x1 - x0) with hs | hs
      · rw [draw_line_PNX x0 y0 x1 y1 hx hy hs, getLast?_range_map]
        rw [show (((x1 - x0).toNat : ℕ) : ℤ) = x1 - x0 from Int.toNat_of_nonneg (by omega),
          Int.mul_ediv_cancel_left _ (show x1 - x0 ≠ 0 by omega)]
        simp only [Option.some.injEq, Prod.mk.injEq]
        constructor <;> ring
      · rw [draw_line_PNY x0 y0 x1 y1 hx hy hs, getLast?_range_map]
        rw [show (((y0 - y1).toNat : ℕ) : ℤ) = y0 - y1 from Int.toNat_of_nonneg (by omega),
          Int.mul_ediv_cancel_left _ (show y0 - y1 ≠ 0 by omega)]
        simp only [Option.some.injEq, Prod.mk.injEq]
        constructor <;> ring
  · rcases le_or_lt y0 y1 with hy | hy
    · rcases le_or_lt (y1 - y0) (x0 - x1) with hs | hs
      · rw [draw_line_NPX x0 y0 x1 y1 hx hy hs, getLast?_range_map]
        rw [show (((x0 - x1).toNat : ℕ) : ℤ) = x0 - x1 from Int.toNat_of_nonneg (by omega),
          Int.mul_ediv_cancel_left _ (show x0 - x1 ≠ 0 by omega)]
        simp only [Option.some.injEq, Prod.mk.injEq]
        constructor <;> ring
      · rw [draw_line_NPY x0 y0 x1 y1 hx hy hs, getLast?_range_map]
        rw [show (((y1 - y0).toNat : ℕ) : ℤ) = y1 - y0 from Int.toNat_of_nonneg (by omega),
          Int.mul_ediv_cancel_left _ (show y1 - y0 ≠ 0 by omega)]
        simp only [Option.some.injEq, Prod.mk.injEq]
        constructor <;> ring
    · rcases le_or_lt (y0 - y1) (x0 - x1) with hs | hs
      · rw [draw_line_NNX x0 y0 x1 y1 hx hy hs, getLast?_range_map]
        rw [show (((x0 - x1).toNat : ℕ) : ℤ) = x0 - x1 from Int.toNat_of_nonneg (by omega),
          Int.mul_ediv_cancel_left _ (show x0 - x1 ≠ 0 by omega)]
        simp only [Option.some.injEq, Prod.mk.injEq]
        constructor <;> ring
      · rw [draw_line_NNY x0 y0 x1 y1 hx hy hs, getLast?_range_map]
        rw [show (((y0 - y1).toNat : ℕ) : ℤ) = y0 - y1 from Int.toNat_of_nonneg (by omega),
          Int.mul_ediv_cancel_left _ (show y0 - y1 ≠ 0 by omega)]
        simp only [Option.some.injEq, Prod.mk.injEq]
        constructor <;> ring

/-- Consecutive plotted cells differ by at most one in each coordinate. -/
theorem draw_line_chain (x0 y0 x1 y1 : ℤ) :
    List.Chain' (fun p q : ℤ × ℤ => (q.1 - p.1).natAbs ≤ 1 ∧ (q.2 - p.2).natAbs ≤ 1)
      (draw_line x0 y0 x1 y1) := by
  by_cases hd : x0 = x1 ∧ y0 = y1
  · obtain ⟨h1, h2⟩ := hd
    rw [← h1, ← h2, draw_line_self]
    simp
  · rcases le_or_lt x0 x1 with hx | hx
    · rcases le_or_lt y0 y1 with hy | hy
      · rcases le_or_lt (y1 - y0) (x1 - x0) with hs | hs
        · have hxne : x0 ≠ x1 := by rintro rfl; exact hd ⟨rfl, by omega⟩
          rw [draw_line_PPX x0 y0 x1 y1 hx hy hs hxne]
          apply chain'_range_map
          intro m hm
          obtain ⟨hmono, hstep⟩ :=
            ediv_mul_step (x1 - x0) (y1 - y0) (by omega) (by omega) hs (m : ℤ)
          refine ⟨?_, ?_⟩ <;> (dsimp only; push_cast; omega)
        · rw [draw_line_PPY x0 y0 x1 y1 hx hy hs]
          apply chain'_range_map
          intro m hm
          obtain ⟨hmono, hstep⟩ :=
            ediv_mul_step (y1 - y0) (x1 - x0) (by omega) (by omega) (by omega) (m : ℤ)
          refine ⟨?_, ?_⟩ <;> (dsimp only; push_cast; omega)
      · rcases le_or_lt (y0 - y1) (x1 - x0) with hs | hs
        · rw [draw_line_PNX x0 y0 x1 y1 hx hy hs]
          apply chain'_range_map
          intro m hm
          obtain ⟨hmono, hstep⟩ :=
            ediv_mul_step (x1 - x0) (y0 - y1) (by omega) (by omega) hs (m : ℤ)
          refine ⟨?_, ?_⟩ <;> (dsimp only; push_cast; omega)
        · rw [draw_line_PNY x0 y0 x1 y1 hx hy hs]
          apply chain'_range_map
          intro m hm
          obtain ⟨hmono, hstep⟩ :=
            ediv_mul_step (y0 - y1) (x1 - x0) (by omega) (by omega) (by omega) (m : ℤ)
          refine ⟨?_, ?_⟩ <;> (dsimp only; push_cast; omega)
    · rcases le_or_lt y0 y1 with hy | hy
      · rcases le_or_lt (y1 - y0) (x0 - x1) with hs | hs
        · rw [draw_line_NPX x0 y0 x1 y1 hx hy hs]
          apply chain'_range_map
          intro m hm
          obtain ⟨hmono, hstep⟩ :=
            ediv_mul_step (x0 - x1) (y1 - y0) (by omega) (by omega) hs (m : ℤ)
          refine ⟨?_, ?_⟩ <;> (dsimp only; push_cast; omega)
        · rw [draw_line_NPY x0 y0 x1 y1 hx hy hs]
          apply chain'_range_map
          intro m hm
          obtain ⟨hmono, hstep⟩ :=
            ediv_mul_step (y1 - y0) (x0 - x1) (by omega) (by omega) (by omega) (m : ℤ)
          refine ⟨?_, ?_⟩ <;> (dsimp only; push_cast; omega)
      · rcases le_or_lt (y0 - y1) (x0 - x1) with hs | hs
        · rw [draw_line_NNX x0 y0 x1 y1 hx hy hs]
          apply chain'_range_map
          intro m hm
          obtain ⟨hmono, hstep⟩ :=
            ediv_mul_step (x0 - x1) (y0 - y1) (by omega) (by omega) hs (m : ℤ)
          refine ⟨?_, ?_⟩ <;> (dsimp only; push_cast; omega)
        · rw [draw_line_NNY x0 y0 x1 y1 hx hy hs]
          apply chain'_range_map
          intro m hm
          obtain ⟨hmono, hstep⟩ :=
            ediv_mul_step (y0 - y1) (x0 - x1) (by omega) (by omega) (by omega) (m : ℤ)
          refine ⟨?_, ?_⟩ <;> (dsimp only; push_cast; omega)

/-- No cell is plotted twice in a single call: the dominant-axis coordinate
moves strictly monotonically. -/
theorem draw_line_nodup (x0 y0 x1 y1 : ℤ) : (draw_line x0 y0 x1 y1).Nodup := by
  by_cases hd : x0 = x1 ∧ y0 = y1
  · obtain ⟨h1, h2⟩ := hd
    rw [← h1, ← h2, draw_line_self]
    simp
  · rcases le_or_lt x0 x1 with hx | hx
    · rcases le_or_lt y0 y1 with hy | hy
      · rcases le_or_lt (y1 - y0) (x1 - x0) with hs | hs
        · have hxne : x0 ≠ x1 := by rintro rfl; exact hd ⟨rfl, by omega⟩
          rw [draw_line_PPX x0 y0 x1 y1 hx hy hs hxne]
          apply nodup_range_map
          intro a b hab
          have h1 := congrArg Prod.fst hab
          dsimp only at h1
          omega
        · rw [draw_line_PPY x0 y0 x1 y1 hx hy hs]
          apply nodup_range_map
          intro a b hab
          have h1 := congrArg Prod.snd hab
          dsimp only at h1
          omega
      · rcases le_or_lt (y0 - y1) (x1 - x0) with hs | hs
        · rw [draw_line_PNX x0 y0 x1 y1 hx hy hs]
          apply nodup_range_map
          intro a b hab
          have h1 := congrArg Prod.fst hab
          dsimp only at h1
          omega
        · rw [draw_line_PNY x0 y0 x1 y1 hx hy hs]
          apply nodup_range_map
          intro a b hab
          have h1 := congrArg Prod.snd hab
          dsimp only at h1
          omega
    · rcases le_or_lt y0 y1 with hy | hy
      · rcases le_or_lt (y1 - y0) (x0 - x1) with hs | hs
        · rw [draw_line_NPX x0 y0 x1 y1 hx hy hs]
          apply nodup_range_map
          intro a b hab
          have h1 := congrArg Prod.fst hab
          dsimp only at h1
          omega
        · rw [draw_line_NPY x0 y0 x1 y1 hx hy hs]
          apply nodup_range_map
          intro a b hab
          have h1 := congrArg Prod.snd hab
          dsimp only at h1
          omega
      · rcases le_or_lt (y0 - y1) (x0 - x1) with hs | hs
        · rw [draw_line_NNX x0 y0 x1 y1 hx hy hs]
          apply nodup_range_map
          intro a b hab
          have h1 := congrArg Prod.fst hab
          dsimp only at h1
          omega
        · rw [draw_line_NNY x0 y0 x1 y1 hx hy hs]
          apply nodup_range_map
          intro a b hab
          have h1 := congrArg Prod.snd hab
          dsimp only at h1
          omega

/-! ## Properties of `draw_sierpinski` -/

/-- The recursive step, phrased through the three child-vertex triples: this
ties `childLeft`, `childRight` and `childUpper` to the arguments the recursive
calls actually receive. -/
theorem draw_sierpinski_succ (ax ay bx byy cx cy : ℤ) (d : ℕ) :
    draw_sierpinski ax ay bx byy cx cy (d + 1)
    = dsOfTriple (childLeft ax ay bx byy cx cy) d ++
      dsOfTriple (childRight ax ay bx byy cx cy) d ++
      dsOfTriple (childUpper ax ay bx byy cx cy) d ++
      draw_line ax ay bx byy ++ draw_line bx byy cx cy ++ draw_line cx cy ax ay := rfl

/-- The plotted cells are exactly the rasterizations of the recorded edge
list, in order: the edge list is a faithful account of the `draw_line`
invocations. -/
theorem draw_sierpinski_eq_flatMap : ∀ (d : ℕ) (ax ay bx byy cx cy : ℤ),
    draw_sierpinski ax ay bx byy cx cy d
    = (draw_sierpinski_segs ax ay bx byy cx cy d).flatMap
        (fun s => draw_line s.1.1 s.1.2 s.2.1 s.2.2) := by
  intro d
  induction d with
  | zero => intro ax ay bx byy cx cy; rfl
  | succ d ih =>
    intro ax ay bx byy cx cy
    simp only [draw_sierpinski, draw_sierpinski_segs, List.flatMap_append, ← ih]
    simp [List.append_assoc]

theorem segs_length_eq_edgeCount : ∀ (d : ℕ) (ax ay bx byy cx cy : ℤ),
    (draw_sierpinski_segs ax ay bx byy cx cy d).length = edgeCount d := by
  intro d
  induction d with
  | zero => intro ax ay bx byy cx cy; rfl
  | succ d ih =>
    intro ax ay bx byy cx cy
    simp only [draw_sierpinski_segs, edgeCount, List.length_append, ih,
      List.length_cons, List.length_nil]
    omega

theorem edgeCount_doubled (d : ℕ) : 2 * edgeCount d = 3 * (3 ^ d - 1) := by
  induction d with
  | zero => rfl
  | succ d ih =>
    have h1 : 1 ≤ 3 ^ d := Nat.one_le_pow _ _ (by norm_num)
    have h2 : (3 : ℕ) ^ (d + 1) = 3 ^ d * 3 := pow_succ 3 d
    simp only [edgeCount]
    omega

theorem edgeCount_eq (d : ℕ) : edgeCount d = 3 * (3 ^ d - 1) / 2 := by
  have h := edgeCount_doubled d
  omega

theorem draw_line_length_pos (x0 y0 x1 y1 : ℤ) : 0 < (draw_line x0 y0 x1 y1).length := by
  rw [draw_line_length]
  omega

theorem draw_sierpinski_length_lt : ∀ (d : ℕ) (ax ay bx byy cx cy : ℤ),
    (draw_sierpinski ax ay bx byy cx cy d).length
      < (draw_sierpinski ax ay bx byy cx cy (d + 1)).length := by
  intro d
  induction d with
  | zero =>
    intro ax ay bx byy cx cy
    have g1 := draw_line_length_pos ax ay bx byy
    simp only [draw_sierpinski, List.length_append, List.length_nil]
    omega
  | succ d ih =>
    intro ax ay bx byy cx cy
    have g1 := ih (bx + Int.tdiv (ax - bx) 2) (ay + Int.tdiv (byy - ay) 2) bx byy ax byy
    have g2 := ih (ax + Int.tdiv (cx - ax) 2) (ay + Int.tdiv (cy - ay) 2) ax byy cx cy
    have g3 := ih ax ay (bx + Int.tdiv (ax - bx) 2) (ay + Int.tdiv (byy - ay) 2)
      (ax + Int.tdiv (cx - ax) 2) (ay + Int.tdiv (cy - ay) 2)
    simp only [draw_sierpinski, List.length_append] at g1 g2 g3 ⊢
    omega

/-! ## Properties of `draw_sierpinskiF` -/

theorem dsF_neg : ∀ (fuel : ℕ) (ax ay bx byy cx cy z : ℤ), z < 0 →
    draw_sierpinskiF fuel ax ay bx byy cx cy z = none := by
  intro fuel
  induction fuel with
  | zero => intro ax ay bx byy cx cy z hz; rfl
  | succ fuel ih =>
    intro ax ay bx byy cx cy z hz
    rw [draw_sierpinskiF, if_neg (by omega), ih _ _ _ _ _ _ (z - 1) (by omega),
      ih _ _ _ _ _ _ (z - 1) (by omega), ih _ _ _ _ _ _ (z - 1) (by omega)]

theorem dsF_of_nat : ∀ (d : ℕ) (ax ay bx byy cx cy : ℤ),
    draw_sierpinskiF (d + 1) ax ay bx byy cx cy (d : ℤ)
    = some (draw_sierpinski ax ay bx byy cx cy d) := by
  intro d
  induction d with
  | zero => intro ax ay bx byy cx cy; rfl
  | succ d ih =>
    intro ax ay bx byy cx cy
    have hz : ¬((d + 1 : ℕ) : ℤ) = 0 := by push_cast; omega
    have hz1 : ((d + 1 : ℕ) : ℤ) - 1 = (d : ℤ) := by push_cast; ring
    rw [draw_sierpinskiF, if_neg hz, hz1, ih, ih, ih]
    rfl

/-! ## The claims -/

/-- C1, counterexample: the covered-cell set of `draw_line` is NOT symmetric
under exchanging the endpoints.  For the segment `(0,0)`-`(2,1)` the forward
direction covers `{(0,0), (1,0), (2,1)}` while the reverse covers
`{(2,1), (1,1), (0,0)}`: the tie-breaking of the decision accumulator picks
different interior cells in the two traversal directions. -/
theorem C1_counterexample :
    ¬(draw_line 0 0 2 1).toFinset = (draw_line 2 1 0 0).toFinset := by decide

/-- C1, amended: the two traversal directions plot the same NUMBER of distinct
cells (namely `max |Δx| |Δy| + 1`), but the covered-cell sets themselves may
differ. -/
theorem C1_amended (x0 y0 x1 y1 : ℤ) :
    (draw_line x0 y0 x1 y1).toFinset.card = (draw_line x1 y1 x0 y0).toFinset.card := by
  rw [List.toFinset_card_of_nodup (draw_line_nodup x0 y0 x1 y1),
    List.toFinset_card_of_nodup (draw_line_nodup x1 y1 x0 y0),
    draw_line_length, draw_line_length]
  omega

/-- C2: the claim says `rasterize(p, p)` plots exactly the cell `p`.  The code
does perform exactly one plot call, but at `(x, y+1)`: with `dx = dy = 0` the
accumulator starts at `0 ≤ 0`, so the single iteration steps `y` before the
plot.  This contradicts the function's own contract ("connect two points") and
is a slip in the degenerate case; every non-degenerate call starts at `p0`. -/
theorem C2_code_bug : draw_line 0 0 0 0 = [(0, 1)] := by decide

/-- C3, counterexample: a negative depth is NOT treated as immediately
terminal.  The guard is `depth == 0`, so `draw_sierpinski` with `depth = -1`
recurses forever: no recursion-depth bound whatsoever suffices to finish
evaluating it (`draw_sierpinskiF` answers `none` for every fuel).  The input is
the first call of `main`, with depth `-1` instead of `4`. -/
theorem C3_counterexample : ¬dsTerminates 65 0 0 65 130 65 (-1) := by
  rintro ⟨fuel, r, h⟩
  rw [dsF_neg fuel 65 0 0 65 130 65 (-1) (by norm_num)] at h
  exact Option.noConfusion h

/-- C3, amended: for every NON-NEGATIVE depth `d` the recursion terminates,
and a bound of exactly `d + 1` nested recursion levels (the `d` subdivision
levels plus the terminal `depth == 0` frame) suffices to evaluate it; a
negative depth never reaches the terminal case. -/
theorem C3_amended (ax ay bx byy cx cy : ℤ) (d : ℕ) :
    draw_sierpinskiF (d + 1) ax ay bx byy cx cy (d : ℤ)
    = some (draw_sierpinski ax ay bx byy cx cy d) :=
  dsF_of_nat d ax ay bx byy cx cy

/-- C4, counterexample: with equal endpoints the first (and only) plotted cell
is `(x, y+1)`, not `p0`, so "the first element is p0" fails for `p0 = p1`. -/
theorem C4_counterexample : (draw_line 0 0 0 0).head? ≠ some ((0 : ℤ), (0 : ℤ)) := by
  decide

/-- C4, amended: for every pair of DISTINCT integer points, the plot sequence
of `draw_line` is finite (it is a list), its first element is `p0` and its
last element is `p1`.  (For `p0 = p1` the single plotted cell is `(x, y+1)`,
the C2 slip.) -/
theorem C4_amended (x0 y0 x1 y1 : ℤ) (h : (x0, y0) ≠ (x1, y1)) :
    (draw_line x0 y0 x1 y1).head? = some (x0, y0) ∧
    (draw_line x0 y0 x1 y1).getLast? = some (x1, y1) := by
  have hd : ¬(x0 = x1 ∧ y0 = y1) := by
    rintro ⟨rfl, rfl⟩
    exact h rfl
  exact ⟨draw_line_head x0 y0 x1 y1 hd, draw_line_getLast x0 y0 x1 y1 hd⟩

/-- Witness for C4: the concrete segment `(0,0)`-`(2,1)`. -/
theorem C4_witness :
    ((0 : ℤ), (0 : ℤ)) ≠ ((2 : ℤ), (1 : ℤ)) ∧
    ((draw_line 0 0 2 1).head? = some (0, 0) ∧
      (draw_line 0 0 2 1).getLast? = some (2, 1)) :=
  ⟨by decide, C4_amended 0 0 2 1 (by decide)⟩

/-- C5, counterexample: for the triangle `A=(0,0)`, `B=(1,3)`, `C=(5,3)` the
apex vertex of the left child call is `(1,1)`, which is none of the three
floor-of-mean midpoints `(0,1)`, `(2,1)`, `(3,3)` and none of the original
vertices: the code computes `v + trunc(Δ/2)` (truncating toward zero), not the
floor of the mean, and they differ when the coordinate difference is negative
and odd. -/
theorem C5_counterexample :
    (childLeft 0 0 1 3 5 3).1 ≠ specMidpoint 0 0 1 3 ∧
    (childLeft 0 0 1 3 5 3).1 ≠ specMidpoint 0 0 5 3 ∧
    (childLeft 0 0 1 3 5 3).1 ≠ specMidpoint 1 3 5 3 ∧
    (childLeft 0 0 1 3 5 3).1 ≠ ((0 : ℤ), (0 : ℤ)) ∧
    (childLeft 0 0 1 3 5 3).1 ≠ ((1 : ℤ), (3 : ℤ)) ∧
    (childLeft 0 0 1 3 5 3).1 ≠ ((5 : ℤ), (3 : ℤ)) := by decide

/-- C5, amended: the code computes the A-B and A-C midpoints as
`v + trunc(Δ/2)` per coordinate and reuses `(ax, by)` in place of the B-C
midpoint.  For triangles in the orientation the program draws
(`bx ≤ ax ≤ cx`, `ay ≤ by = cy`, `bx + cx = 2*ax`) these all coincide with the
floor-of-mean midpoints, and the three children are exactly
`(mAB, B, mBC)`, `(mAC, mBC, C)` and `(A, mAB, mAC)`. -/
theorem C5_amended (ax ay bx byy cx cy : ℤ) (h1 : bx ≤ ax) (h2 : ax ≤ cx)
    (h3 : ay ≤ byy) (h4 : byy = cy) (h5 : bx + cx = 2 * ax) :
    childLeft ax ay bx byy cx cy
      = (specMidpoint ax ay bx byy, (bx, byy), specMidpoint bx byy cx cy) ∧
    childRight ax ay bx byy cx cy
      = (specMidpoint ax ay cx cy, specMidpoint bx byy cx cy, (cx, cy)) ∧
    childUpper ax ay bx byy cx cy
      = ((ax, ay), specMidpoint ax ay bx byy, specMidpoint ax ay cx cy) := by
  have et1 : Int.tdiv (ax - bx) 2 = (ax - bx) / 2 := Int.tdiv_eq_ediv (by omega) (by norm_num)
  have et2 : Int.tdiv (byy - ay) 2 = (byy - ay) / 2 := Int.tdiv_eq_ediv (by omega) (by norm_num)
  have et3 : Int.tdiv (cx - ax) 2 = (cx - ax) / 2 := Int.tdiv_eq_ediv (by omega) (by norm_num)
  have et4 : Int.tdiv (cy - ay) 2 = (cy - ay) / 2 := Int.tdiv_eq_ediv (by omega) (by norm_num)
  have ef1 : Int.fdiv (ax + bx) 2 = (ax + bx) / 2 := Int.fdiv_eq_ediv _ (by norm_num)
  have ef2 : Int.fdiv (ay + byy) 2 = (ay + byy) / 2 := Int.fdiv_eq_ediv _ (by norm_num)
  have ef3 : Int.fdiv (bx + cx) 2 = (bx + cx) / 2 := Int.fdiv_eq_ediv _ (by norm_num)
  have ef4 : Int.fdiv (byy + cy) 2 = (byy + cy) / 2 := Int.fdiv_eq_ediv _ (by norm_num)
  have ef5 : Int.fdiv (ax + cx) 2 = (ax + cx) / 2 := Int.fdiv_eq_ediv _ (by norm_num)
  have ef6 : Int.fdiv (ay + cy) 2 = (ay + cy) / 2 := Int.fdiv_eq_ediv _ (by norm_num)
  refine ⟨?_, ?_, ?_⟩ <;>
    simp only [childLeft, childRight, childUpper, specMidpoint, et1, et2, et3, et4,
      ef1, ef2, ef3, ef4, ef5, ef6, Prod.mk.injEq, eq_self_iff_true, and_true, true_and] <;>
    omega

/-- Witness for C5: the first triangle drawn by `main`,
`A=(65,0)`, `B=(0,65)`, `C=(130,65)`. -/
theorem C5_witness :
    ((0 : ℤ) ≤ 65 ∧ (65 : ℤ) ≤ 130 ∧ (0 : ℤ) ≤ 65 ∧ (65 : ℤ) = 65 ∧
      (0 : ℤ) + 130 = 2 * 65) ∧
    (childLeft 65 0 0 65 130 65
        = (specMidpoint 65 0 0 65, (0, 65), specMidpoint 0 65 130 65) ∧
      childRight 65 0 0 65 130 65
        = (specMidpoint 65 0 130 65, specMidpoint 0 65 130 65, (130, 65)) ∧
      childUpper 65 0 0 65 130 65
        = ((65, 0), specMidpoint 65 0 0 65, specMidpoint 65 0 130 65)) :=
  ⟨by decide,
    C5_amended 65 0 0 65 130 65 (by decide) (by decide) (by decide) (by decide) (by decide)⟩

/-- C6: for every triangle and every depth `d ≥ 0`, `draw_sierpinski` performs
exactly `3 * (3^d - 1) / 2` rasterizer invocations (edges drawn): 0 at depth 0,
3 at depth 1, 12 at depth 2, and so on. -/
theorem C6_edge_count (ax ay bx byy cx cy : ℤ) (d : ℕ) :
    (draw_sierpinski_segs ax ay bx byy cx cy d).length = 3 * (3 ^ d - 1) / 2 := by
  rw [segs_length_eq_edgeCount d ax ay bx byy cx cy, edgeCount_eq]

/-- C7: in every plot sequence of `draw_line`, each plotted cell differs from
its immediate predecessor by at most 1 in x and at most 1 in y
(8-connectivity, no skipped cells). -/
theorem C7_adjacent (x0 y0 x1 y1 : ℤ) :
    List.Chain' (fun p q : ℤ × ℤ => (q.1 - p.1).natAbs ≤ 1 ∧ (q.2 - p.2).natAbs ≤ 1)
      (draw_line x0 y0 x1 y1) :=
  draw_line_chain x0 y0 x1 y1

/-- C8: for every fixed triangle, increasing the depth by one strictly
increases the total number of plot calls. -/
theorem C8_strict_growth (ax ay bx byy cx cy : ℤ) (d : ℕ) :
    (draw_sierpinski ax ay bx byy cx cy d).length
      < (draw_sierpinski ax ay bx byy cx cy (d + 1)).length :=
  draw_sierpinski_length_lt d ax ay bx byy cx cy

/-- C9: at depth 0, `draw_sierpinski` performs no plot call at all: the plot
sequence is empty, so the modelled surface is untouched. -/
theorem C9_depth_zero (ax ay bx byy cx cy : ℤ) :
    draw_sierpinski ax ay bx byy cx cy 0 = [] := rfl

/-- C10: every `draw_line` call performs exactly `max |Δx| |Δy| + 1` plot
calls (one when `p0 = p1`), and the plotted cells of a single call are
pairwise distinct. -/
theorem C10_count_nodup (x0 y0 x1 y1 : ℤ) :
    (draw_line x0 y0 x1 y1).length = max (x1 - x0).natAbs (y1 - y0).natAbs + 1 ∧
    (draw_line x0 y0 x1 y1).Nodup :=
  ⟨draw_line_length x0 y0 x1 y1, draw_line_nodup x0 y0 x1 y1⟩

end Sierpinski
